import Mathlib

/-!
Verification of the word-counting utility (`hw-intro/words/main.c`).

The byte stream delivered by `fgetc` is modelled as a `List Nat` of byte
values (0..255); `EOF` is the end of the list.  C `int` counters only ever
increase by one from zero here, so they are modelled as `Nat`.

The list functions `init_words`, `add_word`, `wordcount_sort` and
`fprint_words` live in `word_count.c`, which is not part of the sources;
they are modelled from the spec where needed (see the doc comments).
-/

/-- C `isalpha` in the default locale, applied to a byte value returned by
`fgetc`: true exactly on `A`..`Z` (65..90) and `a`..`z` (97..122). -/
def isalphaB (c : Nat) : Bool := (65 ≤ c && c ≤ 90) || (97 ≤ c && c ≤ 122)

/-- C `tolower` in the default locale on a byte value: maps `A`..`Z` to
`a`..`z` and leaves every other byte unchanged. -/
def tolowerB (c : Nat) : Nat := if 65 ≤ c ∧ c ≤ 90 then c + 32 else c

/-- `MAX_WORD_LEN` from `main.c`. -/
def MAX_WORD_LEN : Nat := 64

/-- The `while ((c = fgetc(infile)) != EOF)` loop of `num_words` in
`main.c`, followed by the end-of-stream check.  The state is the remaining
input together with the C locals `in_word`, `word_length` and the
accumulated count `num_words`. -/
def numWordsAux : List Nat → Bool → Nat → Nat → Nat
  | [], in_word, word_length, n =>
    if in_word = true ∧ 1 < word_length then n + 1 else n
  | c :: cs, in_word, word_length, n =>
    if isalphaB c then
      numWordsAux cs true (word_length + 1) n
    else
      numWordsAux cs false 0 (if in_word = true ∧ 1 < word_length then n + 1 else n)

/-- `num_words` from `main.c`: locals start as `in_word = 0`,
`word_length = 0`, `num_words = 0`. -/
def num_words (l : List Nat) : Nat := numWordsAux l false 0 0

theorem dropWhile_length_le (p : Nat → Bool) :
    ∀ l : List Nat, (l.dropWhile p).length ≤ l.length
  | [] => le_refl _
  | c :: cs => by
    rw [List.dropWhile_cons]
    split
    · exact le_trans (dropWhile_length_le p cs) (Nat.le_succ _)
    · exact le_refl _

/-- Reference scanner, written from the spec's words: the number of maximal
runs of consecutive alphabetic bytes whose length is at least 2.  A maximal
run starts at an alphabetic byte that is not preceded by an alphabetic byte
and extends as far as the alphabetic bytes do. -/
def countRuns : List Nat → Nat
  | [] => 0
  | c :: cs =>
    if isalphaB c then
      (if 2 ≤ (c :: cs.takeWhile isalphaB).length then 1 else 0) +
        countRuns (cs.dropWhile isalphaB)
    else countRuns cs
termination_by l => l.length
decreasing_by
  · simp only [List.length_cons]
    exact Nat.lt_succ_of_le (dropWhile_length_le isalphaB cs)
  · simp only [List.length_cons]
    exact Nat.lt_succ_self _

theorem numWordsAux_correct (l : List Nat) :
    (∀ n, numWordsAux l false 0 n = n + countRuns l) ∧
    (∀ n k, 1 ≤ k →
      numWordsAux l true k n =
        n + (if 2 ≤ k + (l.takeWhile isalphaB).length then 1 else 0) +
          countRuns (l.dropWhile isalphaB)) := by
  induction l with
  | nil =>
    constructor
    · intro n
      simp [numWordsAux, countRuns]
    · intro n k hk
      simp only [numWordsAux, List.takeWhile_nil, List.dropWhile_nil, List.length_nil,
        Nat.add_zero, countRuns, true_and]
      split_ifs <;> omega
  | cons c cs ih =>
    constructor
    · intro n
      by_cases hc : isalphaB c
      · have hstep : numWordsAux (c :: cs) false 0 n = numWordsAux cs true 1 n := by
          simp [numWordsAux, hc]
        rw [hstep, ih.2 n 1 (le_refl 1), countRuns]
        simp only [hc, if_true, List.length_cons]
        split_ifs <;> omega
      · have hstep : numWordsAux (c :: cs) false 0 n = numWordsAux cs false 0 n := by
          simp [numWordsAux, hc]
        rw [hstep, ih.1 n, countRuns]
        simp [hc]
    · intro n k hk
      by_cases hc : isalphaB c
      · have hstep : numWordsAux (c :: cs) true k n = numWordsAux cs true (k + 1) n := by
          simp [numWordsAux, hc]
        rw [hstep, ih.2 n (k + 1) (by omega)]
        rw [List.takeWhile_cons_of_pos hc, List.dropWhile_cons_of_pos hc]
        simp only [List.length_cons]
        split_ifs <;> omega
      · have hstep : numWordsAux (c :: cs) true k n =
            numWordsAux cs false 0 (if 1 < k then n + 1 else n) := by
          simp [numWordsAux, hc]
        have hcr : countRuns (c :: cs) = countRuns cs := by
          rw [countRuns]
          simp [hc]
        rw [List.takeWhile_cons_of_neg hc, List.dropWhile_cons_of_neg hc, hstep,
          ih.1 (if 1 < k then n + 1 else n), hcr]
        simp only [List.length_nil, Nat.add_zero]
        split_ifs <;> omega

/-- Claim C1: for every input byte stream, `num_words` returns exactly the
number of maximal runs of consecutive alphabetic bytes of length at least 2
in that stream, counting a run that is still open when the stream ends. -/
theorem num_words_counts_runs (l : List Nat) : num_words l = countRuns l := by
  have h := (numWordsAux_correct l).1 0
  simpa [num_words] using h

/-- A word record: the word's bytes and its occurrence count.  `WordCount`
is declared in `word_count.h`; per the spec's data model the count is a
non-negative integer and the word a bounded-length string. -/
structure WordCount where
  word : List Nat
  count : Nat
deriving DecidableEq

/-- The frequency table: an ordered collection of word records, in
first-occurrence order before sorting (spec, section 3). -/
abbrev WordTable : Type := List (List Nat × Nat)

/-- Modelled from the spec: `add_word` (the increment operation of
`word_count.c`, absent from the sources).  Spec, section 4.2: it looks the
word up by exact string match; if present, increments its count by 1;
otherwise appends a new record with count 1. -/
def add_word (t : WordTable) (w : List Nat) : WordTable :=
  if (List.any t fun r => r.1 = w) then
    List.map (fun r => if r.1 = w then (r.1, r.2 + 1) else r) t
  else
    t ++ [(w, 1)]

/-- The `while ((c = fgetc(infile)) != EOF)` loop of `count_words` in
`main.c`, followed by the end-of-stream check.  The C buffer `word` with
its index is modelled as the list `buf` of the bytes stored so far
(`buf.length` is `index`); on an alphabetic byte the lowered byte is
appended only while `index < MAX_WORD_LEN`; on any other byte the buffer is
flushed to `add_word` only when `index > 1` (note: otherwise `index` is
left unchanged, exactly as in the C source). -/
def cwRun : List Nat → List Nat → WordTable → WordTable
  | [], buf, t => if 1 < buf.length then add_word t buf else t
  | c :: cs, buf, t =>
    if isalphaB c then
      cwRun cs (if buf.length < MAX_WORD_LEN then buf ++ [tolowerB c] else buf) t
    else if 1 < buf.length then
      cwRun cs [] (add_word t buf)
    else
      cwRun cs buf t

/-- The effect of `count_words` on a table for a given stream, starting
from an empty buffer (`index = 0`). -/
def count_wordsRun (t : WordTable) (l : List Nat) : WordTable := cwRun l [] t

/-- `count_words` from `main.c`, null checks included: a `none` argument
models a NULL `wclist` or `infile`; the result is the returned code paired
with the table (left untouched on the error path). -/
def count_words (wclist : Option WordTable) (infile : Option (List Nat)) :
    Int × Option WordTable :=
  match wclist, infile with
  | none, _ => (1, wclist)
  | some _, none => (1, wclist)
  | some t, some l => (0, some (count_wordsRun t l))

/-- The sum of the counts over all records of a table. -/
def sumCounts (t : WordTable) : Nat := (List.map (fun r => r.2) t).sum

/-- Claim C2 evaluation: on the stream `"a b c"` the code returns 0 from
`num_words`, but `count_words` does not leave the table empty: the single
letter `a` is never flushed (the `else if (index > 1)` branch skips the
reset), so `b` is appended to the leftover buffer and the record `"ab"` is
inserted with count 1. -/
theorem count_words_single_letter_leak :
    num_words [97, 32, 98, 32, 99] = 0 ∧
      count_wordsRun [] [97, 32, 98, 32, 99] = [([97, 98], 1)] := by
  constructor
  · rfl
  · rfl

/-- Claim C3 evaluation: on the stream `"a b"` the sum of the counts in the
table built by `count_words` is 1 (the leaked record `"ab"`), while
`num_words` returns 0, so the cross-mode consistency law fails on the
code. -/
theorem count_sum_mismatch :
    sumCounts (count_wordsRun [] [97, 32, 98]) = 1 ∧
      num_words [97, 32, 98] = 0 := by
  constructor
  · rfl
  · rfl

/-- The sequence of words that `count_words` passes to `add_word`: the same
loop as `cwRun`, reading off the flushed buffers instead of applying the
table operations. -/
def cwTrace : List Nat → List Nat → List (List Nat)
  | [], buf => if 1 < buf.length then [buf] else []
  | c :: cs, buf =>
    if isalphaB c then
      cwTrace cs (if buf.length < MAX_WORD_LEN then buf ++ [tolowerB c] else buf)
    else if 1 < buf.length then
      buf :: cwTrace cs []
    else
      cwTrace cs buf

theorem cwRun_eq_trace_foldl : ∀ (l buf : List Nat) (t : WordTable),
    cwRun l buf t = List.foldl add_word t (cwTrace l buf)
  | [], buf, t => by
    simp only [cwRun, cwTrace]
    split <;> simp
  | c :: cs, buf, t => by
    by_cases hc : isalphaB c
    · simp only [cwRun, cwTrace, hc, if_true]
      exact cwRun_eq_trace_foldl cs _ t
    · by_cases hb : 1 < buf.length
      · simp only [cwRun, cwTrace, hc, hb, if_true, if_false, List.foldl_cons]
        exact cwRun_eq_trace_foldl cs [] (add_word t buf)
      · simp only [cwRun, cwTrace, hc, hb, if_false]
        exact cwRun_eq_trace_foldl cs buf t

theorem tolowerB_lower {c : Nat} (h : isalphaB c = true) :
    97 ≤ tolowerB c ∧ tolowerB c ≤ 122 := by
  simp only [isalphaB, Bool.or_eq_true, Bool.and_eq_true, decide_eq_true_eq] at h
  unfold tolowerB
  split_ifs <;> omega

theorem cwTrace_words_ok : ∀ (l buf : List Nat),
    buf.length ≤ MAX_WORD_LEN → (∀ c ∈ buf, 97 ≤ c ∧ c ≤ 122) →
    ∀ w ∈ cwTrace l buf,
      2 ≤ w.length ∧ w.length ≤ MAX_WORD_LEN ∧ ∀ c ∈ w, 97 ≤ c ∧ c ≤ 122
  | [], buf, hlen, hchars, w, hw => by
    simp only [cwTrace] at hw
    split at hw
    · rw [List.mem_singleton] at hw
      subst hw
      exact ⟨by omega, hlen, hchars⟩
    · simp at hw
  | c :: cs, buf, hlen, hchars, w, hw => by
    by_cases hc : isalphaB c
    · simp only [cwTrace, hc, if_true] at hw
      by_cases hfit : buf.length < MAX_WORD_LEN
      · rw [if_pos hfit] at hw
        refine cwTrace_words_ok cs (buf ++ [tolowerB c]) ?_ ?_ w hw
        · simp only [List.length_append, List.length_singleton]
          omega
        · intro x hx
          rcases List.mem_append.1 hx with hx | hx
          · exact hchars x hx
          · rw [List.mem_singleton] at hx
            subst hx
            exact tolowerB_lower hc
      · rw [if_neg hfit] at hw
        exact cwTrace_words_ok cs buf hlen hchars w hw
    · by_cases hb : 1 < buf.length
      · rw [cwTrace, if_neg hc, if_pos hb, List.mem_cons] at hw
        rcases hw with hw | hw
        · subst hw
          exact ⟨by omega, hlen, hchars⟩
        · exact cwTrace_words_ok cs [] (by simp [MAX_WORD_LEN]) (by simp) w hw
      · rw [cwTrace, if_neg hc, if_neg hb] at hw
        exact cwTrace_words_ok cs buf hlen hchars w hw

/-- Claim C8: in `count_words` the buffer index never exceeds
`MAX_WORD_LEN` (64), and every string passed to `add_word` (the flushed,
NUL-terminated buffer, modelled as the list of its stored bytes) is at
least 2 and at most 64 bytes long and consists only of lowercased
alphabetic characters. -/
theorem count_words_buffer_invariant :
    (∀ (t : WordTable) (l : List Nat),
      count_wordsRun t l = List.foldl add_word t (cwTrace l [])) ∧
    (∀ (l w : List Nat), w ∈ cwTrace l [] →
      2 ≤ w.length ∧ w.length ≤ MAX_WORD_LEN ∧ ∀ c ∈ w, 97 ≤ c ∧ c ≤ 122) := by
  constructor
  · intro t l
    exact cwRun_eq_trace_foldl l [] t
  · intro l w hw
    exact cwTrace_words_ok l [] (by simp [MAX_WORD_LEN]) (by simp) w hw

/-- Witness for C8: the stream `"cat"` flushes exactly the word `cat`,
whose length lies between 2 and `MAX_WORD_LEN`. -/
theorem count_words_buffer_invariant_witness :
    2 ≤ ([99, 97, 116] : List Nat).length ∧
      ([99, 97, 116] : List Nat).length ≤ MAX_WORD_LEN :=
  ⟨(count_words_buffer_invariant.2 [99, 97, 116] [99, 97, 116] (by decide)).1,
   (count_words_buffer_invariant.2 [99, 97, 116] [99, 97, 116] (by decide)).2.1⟩

/-- Claim C5: `count_words` returns the failure code 1 exactly when the
table handle or the stream handle is NULL — in which case the table is not
touched — and returns 0 for every non-null pair of arguments. -/
theorem count_words_null_check (w : Option WordTable) (f : Option (List Nat)) :
    ((count_words w f).1 = 1 ↔ w = none ∨ f = none) ∧
    (w = none ∨ f = none → (count_words w f).2 = w) ∧
    (w ≠ none → f ≠ none → (count_words w f).1 = 0) := by
  rcases w with _ | t
  · simp [count_words]
  · rcases f with _ | l
    · simp [count_words]
    · simp [count_words]

/-- Witness for C5: a NULL table with a live stream yields code 1 and an
untouched table; two non-null handles yield code 0. -/
theorem count_words_null_check_witness :
    (count_words none (some [97])).1 = 1 ∧
      (count_words none (some [97])).2 = none ∧
      (count_words (some []) (some [97])).1 = 0 := by
  refine ⟨?_, ?_, ?_⟩
  · exact (count_words_null_check none (some [97])).1.mpr (Or.inl rfl)
  · exact (count_words_null_check none (some [97])).2.1 (Or.inl rfl)
  · exact (count_words_null_check (some []) (some [97])).2.2 (by simp) (by simp)

theorem cwRun_alpha_append : ∀ (run buf rest : List Nat) (t : WordTable),
    (∀ c ∈ run, isalphaB c = true) → buf.length ≤ MAX_WORD_LEN →
    cwRun (run ++ rest) buf t =
      cwRun rest ((buf ++ run.map tolowerB).take MAX_WORD_LEN) t
  | [], buf, rest, t, _, hb => by
    rw [List.nil_append, List.map_nil, List.append_nil, List.take_of_length_le hb]
  | c :: run', buf, rest, t, h, hb => by
    have hc : isalphaB c = true := h c (List.mem_cons_self c run')
    have h' : ∀ x ∈ run', isalphaB x = true := fun x hx => h x (List.mem_cons_of_mem c hx)
    rw [List.cons_append, cwRun, if_pos hc]
    by_cases hfit : buf.length < MAX_WORD_LEN
    · rw [if_pos hfit,
        cwRun_alpha_append run' (buf ++ [tolowerB c]) rest t h'
          (by simp only [List.length_append, List.length_singleton]; omega),
        List.map_cons, List.append_assoc, List.singleton_append]
    · have hfull : MAX_WORD_LEN ≤ buf.length := Nat.le_of_not_lt hfit
      rw [if_neg hfit, cwRun_alpha_append run' buf rest t h' hb, List.map_cons,
        List.take_append_of_le_length hfull, List.take_append_of_le_length hfull]

theorem add_word_nil (w : List Nat) : add_word [] w = [(w, 1)] := by
  simp [add_word]

theorem add_word_same (w : List Nat) (n : Nat) :
    add_word [(w, n)] w = [(w, n + 1)] := by
  simp [add_word]

/-- Claim C6: a qualifying run longer than `MAX_WORD_LEN` is stored
truncated to `MAX_WORD_LEN` bytes (excess trailing characters dropped), not
rejected; and two words identical up to `MAX_WORD_LEN` but differing only
after it collide into a single record whose count is the sum of their
occurrences. -/
theorem count_words_truncation (r1 r2 : List Nat) (sep : Nat)
    (h1 : ∀ c ∈ r1, isalphaB c = true) (h2 : ∀ c ∈ r2, isalphaB c = true)
    (hsep : isalphaB sep = false)
    (hl1 : MAX_WORD_LEN < r1.length) (hl2 : MAX_WORD_LEN ≤ r2.length)
    (htk : r1.take MAX_WORD_LEN = r2.take MAX_WORD_LEN) :
    count_wordsRun [] r1 = [((r1.map tolowerB).take MAX_WORD_LEN, 1)] ∧
      count_wordsRun [] (r1 ++ sep :: r2) =
        [((r1.map tolowerB).take MAX_WORD_LEN, 2)] := by
  have hw1len : ((r1.map tolowerB).take MAX_WORD_LEN).length = MAX_WORD_LEN := by
    rw [List.length_take, List.length_map]
    omega
  have hw2len : ((r2.map tolowerB).take MAX_WORD_LEN).length = MAX_WORD_LEN := by
    rw [List.length_take, List.length_map]
    omega
  have hw12 : (r2.map tolowerB).take MAX_WORD_LEN = (r1.map tolowerB).take MAX_WORD_LEN := by
    rw [← List.map_take, ← List.map_take, htk]
  have hsep' : ¬ isalphaB sep = true := by
    rw [hsep]
    simp
  constructor
  · have h := cwRun_alpha_append r1 [] [] [] h1 (by simp)
    rw [List.append_nil] at h
    unfold count_wordsRun
    rw [h, List.nil_append, cwRun, if_pos (by rw [hw1len]; norm_num [MAX_WORD_LEN]),
      add_word_nil]
  · unfold count_wordsRun
    rw [cwRun_alpha_append r1 [] (sep :: r2) [] h1 (by simp), List.nil_append, cwRun,
      if_neg hsep', if_pos (by rw [hw1len]; norm_num [MAX_WORD_LEN]), add_word_nil]
    have h := cwRun_alpha_append r2 [] [] [(((r1.map tolowerB).take MAX_WORD_LEN), 1)] h2
      (by simp)
    rw [List.append_nil] at h
    rw [h, List.nil_append, cwRun, if_pos (by rw [hw2len]; norm_num [MAX_WORD_LEN]),
      hw12, add_word_same]

/-- Witness for C6: a run of 65 `a`s and a run of 64 `a`s followed by `b`
agree on their first 64 bytes; fed as one stream separated by a space they
produce the single record `a^64` with count 2. -/
theorem count_words_truncation_witness :
    count_wordsRun [] (List.replicate 65 97 ++ 32 :: (List.replicate 64 97 ++ [98])) =
      [(((List.replicate 65 97).map tolowerB).take MAX_WORD_LEN, 2)] :=
  (count_words_truncation (List.replicate 65 97) (List.replicate 64 97 ++ [98]) 32
    (by decide) (by decide) (by decide) (by decide) (by decide) (by decide)).2

/-- C `strcmp` on NUL-terminated strings, modelled on the lists of bytes
before the terminator: running off the end of a list is reading the NUL
byte.  The scan advances while the current bytes are equal and non-NUL and
then returns the difference of the first bytes where it stopped. -/
def strcmp : List Nat → List Nat → Int
  | [], [] => 0
  | [], b :: _ => 0 - (b : Int)
  | a :: _, [] => (a : Int)
  | a :: as, b :: bs =>
    if a = b ∧ a ≠ 0 then strcmp as bs else (a : Int) - (b : Int)

/-- `wordcount_less` from `main.c`: ascending count, ties broken by
`strcmp` on the words. -/
def wordcount_less (wc1 wc2 : WordCount) : Bool :=
  if wc1.count = wc2.count then decide (strcmp wc1.word wc2.word < 0)
  else decide (wc1.count < wc2.count)

theorem strcmp_flip : ∀ (a b : List Nat), strcmp a b < 0 ↔ 0 < strcmp b a
  | [], [] => by simp [strcmp]
  | [], b :: bs => by
    simp only [strcmp]
    omega
  | a :: as, [] => by
    simp only [strcmp]
    omega
  | a :: as, b :: bs => by
    simp only [strcmp]
    by_cases hc : a = b ∧ a ≠ 0
    · have hc' : b = a ∧ b ≠ 0 := by omega
      rw [if_pos hc, if_pos hc']
      exact strcmp_flip as bs
    · have hc' : ¬(b = a ∧ b ≠ 0) := by omega
      rw [if_neg hc, if_neg hc']
      omega

theorem strcmp_eq_zero_iff : ∀ (a b : List Nat),
    (∀ x ∈ a, x ≠ 0) → (∀ x ∈ b, x ≠ 0) → (strcmp a b = 0 ↔ a = b)
  | [], [], _, _ => by simp [strcmp]
  | [], b :: bs, _, hb => by
    have hb0 := hb b (List.mem_cons_self b bs)
    simp only [strcmp]
    constructor
    · intro h
      omega
    · intro h
      exact absurd h (by simp)
  | a :: as, [], ha, _ => by
    have ha0 := ha a (List.mem_cons_self a as)
    simp only [strcmp]
    constructor
    · intro h
      omega
    · intro h
      exact absurd h (by simp)
  | a :: as, b :: bs, ha, hb => by
    have ha0 := ha a (List.mem_cons_self a as)
    simp only [strcmp]
    by_cases hab : a = b
    · rw [if_pos ⟨hab, ha0⟩,
        strcmp_eq_zero_iff as bs (fun x hx => ha x (List.mem_cons_of_mem a hx))
          (fun x hx => hb x (List.mem_cons_of_mem b hx))]
      simp [hab]
    · rw [if_neg (fun h => hab h.1)]
      constructor
      · intro h
        exact absurd (by omega : a = b) hab
      · intro h
        injection h with h1 _
        exact absurd h1 hab

theorem strcmp_lt_iff_lex : ∀ (a b : List Nat),
    (∀ x ∈ a, x ≠ 0) → (∀ x ∈ b, x ≠ 0) →
    (strcmp a b < 0 ↔ List.Lex (· < ·) a b)
  | [], [], _, _ => by
    simp only [strcmp]
    constructor
    · intro h
      exact absurd h (by omega)
    · intro h
      cases h
  | [], b :: bs, _, hb => by
    have hb0 := hb b (List.mem_cons_self b bs)
    simp only [strcmp]
    constructor
    · intro _
      exact List.Lex.nil
    · intro _
      omega
  | a :: as, [], _, _ => by
    simp only [strcmp]
    constructor
    · intro h
      exact absurd h (by omega)
    · intro h
      cases h
  | a :: as, b :: bs, ha, hb => by
    have ha0 := ha a (List.mem_cons_self a as)
    simp only [strcmp]
    by_cases hab : a = b
    · subst hab
      rw [if_pos ⟨rfl, ha0⟩,
        strcmp_lt_iff_lex as bs (fun x hx => ha x (List.mem_cons_of_mem a hx))
          (fun x hx => hb x (List.mem_cons_of_mem a hx))]
      constructor
      · intro h
        exact List.Lex.cons h
      · intro h
        cases h with
        | cons h' => exact h'
        | rel h' => exact absurd h' (lt_irrefl a)
    · rw [if_neg (fun h => hab h.1)]
      constructor
      · intro h
        exact List.Lex.rel (by omega)
      · intro h
        cases h with
        | cons h' => exact absurd rfl hab
        | rel h' => omega

theorem wordcount_less_iff (A B : WordCount)
    (hA : ∀ x ∈ A.word, x ≠ 0) (hB : ∀ x ∈ B.word, x ≠ 0) :
    (wordcount_less A B = true ↔
      A.count < B.count ∨ (A.count = B.count ∧ List.Lex (· < ·) A.word B.word)) := by
  unfold wordcount_less
  by_cases hc : A.count = B.count
  · rw [if_pos hc, decide_eq_true_eq, strcmp_lt_iff_lex A.word B.word hA hB]
    constructor
    · intro h
      exact Or.inr ⟨hc, h⟩
    · intro h
      rcases h with h | h
      · omega
      · exact h.2
  · rw [if_neg hc, decide_eq_true_eq]
    constructor
    · intro h
      exact Or.inl h
    · intro h
      rcases h with h | h
      · exact h
      · exact absurd h.1 hc

theorem wordcount_less_false_pair (A B : WordCount)
    (hA : ∀ x ∈ A.word, x ≠ 0) (hB : ∀ x ∈ B.word, x ≠ 0)
    (h : wordcount_less B A = false) :
    A.count < B.count ∨
      (A.count = B.count ∧ (A.word = B.word ∨ List.Lex (· < ·) A.word B.word)) := by
  unfold wordcount_less at h
  by_cases hc : B.count = A.count
  · rw [if_pos hc, decide_eq_false_iff_not] at h
    have htr : strcmp B.word A.word = 0 ∨ 0 < strcmp B.word A.word := by omega
    rcases htr with h0 | hpos
    · exact Or.inr ⟨hc.symm, Or.inl ((strcmp_eq_zero_iff B.word A.word hB hA).1 h0).symm⟩
    · have : strcmp A.word B.word < 0 := (strcmp_flip A.word B.word).2 hpos
      exact Or.inr ⟨hc.symm, Or.inr ((strcmp_lt_iff_lex A.word B.word hA hB).1 this)⟩
  · rw [if_neg hc, decide_eq_false_iff_not] at h
    exact Or.inl (by omega)

theorem wordcount_chain_aux : ∀ (l : List WordCount),
    (∀ wc ∈ l, ∀ x ∈ wc.word, x ≠ 0) →
    List.Chain' (fun a b => wordcount_less b a = false) l →
    List.Chain' (fun a b =>
      a.count < b.count ∨
        (a.count = b.count ∧ (a.word = b.word ∨ List.Lex (· < ·) a.word b.word))) l
  | [], _, _ => by simp
  | [a], _, _ => by simp
  | a :: b :: t, hz, hc => by
    rw [List.chain'_cons] at hc ⊢
    refine ⟨?_, ?_⟩
    · exact wordcount_less_false_pair a b
        (hz a (List.mem_cons_self a (b :: t)))
        (hz b (List.mem_cons_of_mem a (List.mem_cons_self b t))) hc.1
    · exact wordcount_chain_aux (b :: t)
        (fun wc hwc => hz wc (List.mem_cons_of_mem a hwc)) hc.2

/-- Claim C4: `wordcount_less` orders records by ascending count and, on
equal counts, by ascending byte-wise lexicographic order of the words
(words being NUL-free C strings); consequently in a table sorted by this
comparator every adjacent pair `A, B` satisfies `A.count < B.count`, or
`A.count = B.count` and `A.word ≤ B.word` lexicographically. -/
theorem wordcount_less_sorted (A B : WordCount)
    (hA : ∀ x ∈ A.word, x ≠ 0) (hB : ∀ x ∈ B.word, x ≠ 0)
    (l : List WordCount) (hz : ∀ wc ∈ l, ∀ x ∈ wc.word, x ≠ 0)
    (hs : List.Chain' (fun a b => wordcount_less b a = false) l) :
    (wordcount_less A B = true ↔
      A.count < B.count ∨ (A.count = B.count ∧ List.Lex (· < ·) A.word B.word)) ∧
    List.Chain' (fun a b =>
      a.count < b.count ∨
        (a.count = b.count ∧ (a.word = b.word ∨ List.Lex (· < ·) a.word b.word))) l :=
  ⟨wordcount_less_iff A B hA hB, wordcount_chain_aux l hz hs⟩

/-- Witness for C4: the records `cat: 1` and `dog: 1` form a sorted table
and satisfy the ordering law. -/
theorem wordcount_less_sorted_witness :
    List.Chain' (fun a b =>
      a.count < b.count ∨
        (a.count = b.count ∧ (a.word = b.word ∨ List.Lex (· < ·) a.word b.word)))
      [WordCount.mk [99, 97, 116] 1, WordCount.mk [100, 111, 103] 1] :=
  (wordcount_less_sorted (WordCount.mk [99, 97, 116] 1) (WordCount.mk [100, 111, 103] 1)
    (by decide) (by decide)
    [WordCount.mk [99, 97, 116] 1, WordCount.mk [100, 111, 103] 1] (by decide)
    (List.chain'_cons.mpr ⟨by decide, List.chain'_singleton _⟩)).2

/-- A parsed command-line option as delivered by `getopt_long` with option
string `"cfh"`: `-c`/`--count`, `-f`/`--frequency`, `-h`/`--help`, or an
unrecognised option (the `default` case of the switch). -/
inductive CFlag
  | c
  | f
  | h
  | unknown
deriving DecidableEq

/-- `display_help` from `main.c`: prints the flag summary and returns 0. -/
def display_help : Nat := 0

/-- The `getopt_long` loop of `main`: options are processed in order,
each mode flag setting one of `count_mode`/`freq_mode` and clearing the
other; on `-h` or an unrecognised option `main` returns `display_help()`
immediately (modelled as `none`). -/
def parseLoop : List CFlag → Bool → Bool → Option (Bool × Bool)
  | [], count_mode, freq_mode => some (count_mode, freq_mode)
  | CFlag.c :: rest, _, _ => parseLoop rest true false
  | CFlag.f :: rest, _, _ => parseLoop rest false true
  | CFlag.h :: _, _, _ => none
  | CFlag.unknown :: _, _, _ => none

/-- Whether `main` reaches the `"Please specify a mode."` branch for the
given flags, starting from the defaults `count_mode = true`,
`freq_mode = false`. -/
def please_specify_reached (flags : List CFlag) : Bool :=
  match parseLoop flags true false with
  | none => false
  | some (count_mode, freq_mode) => !count_mode && !freq_mode

/-- The observable outcome of `main`: the process exit status, the printed
total for count mode, and the final (unsorted) table for frequency mode. -/
structure MainResult where
  exit : Nat
  total : Nat
  table : WordTable
deriving DecidableEq

/-- The file loop of `main` (lines 195-207): each file that opens (`some
content`) is drained into the running total or the shared table; a file
whose `fopen` fails (`none`) is reported and skipped.  The return value of
`count_words` is bound and discarded, as at the call sites in `main`. -/
def fileLoop (count_mode : Bool) : Nat × WordTable → Option (List Nat) → Nat × WordTable
  | st, none => st
  | st, some content =>
    if count_mode then
      (st.1 + num_words content, st.2)
    else
      let r := count_words (some st.2) (some content)
      (st.1, (r.2).getD st.2)

/-- `main` from `main.c`, modelled on the parsed flags, the stdin stream,
and the list of named inputs (`none` is a file that fails to open).  The
table starts empty (`init_words`); with no file arguments the selected
mode runs on stdin. -/
def mainRun (flags : List CFlag) (stdin : List Nat)
    (files : List (Option (List Nat))) : MainResult :=
  match parseLoop flags true false with
  | none => MainResult.mk display_help 0 []
  | some (count_mode, freq_mode) =>
    if !count_mode && !freq_mode then
      MainResult.mk display_help 0 []
    else if files.isEmpty then
      if count_mode then
        MainResult.mk 0 (num_words stdin) []
      else
        let r := count_words (some []) (some stdin)
        MainResult.mk 0 0 ((r.2).getD [])
    else
      let st := List.foldl (fileLoop count_mode) (0, []) files
      MainResult.mk 0 st.1 st.2

theorem fileLoop_count_sum : ∀ (fs : List (List Nat)) (acc : Nat) (t : WordTable),
    List.foldl (fileLoop true) (acc, t) (fs.map some) = (acc + (fs.map num_words).sum, t)
  | [], acc, t => by simp [List.foldl]
  | f :: fs, acc, t => by
    have hstep : fileLoop true (acc, t) (some f) = (acc + num_words f, t) := rfl
    rw [List.map_cons, List.foldl_cons, hstep, fileLoop_count_sum fs (acc + num_words f) t,
      List.map_cons, List.sum_cons, Nat.add_assoc]

/-- Claim C9: `main` discards the return value of `count_words` at both
call sites, and every path through `mainRun` — help or not, unopenable
files included — ends with exit status 0. -/
theorem main_exit_zero (flags : List CFlag) (stdin : List Nat)
    (files : List (Option (List Nat))) : (mainRun flags stdin files).exit = 0 := by
  unfold mainRun
  split
  · rfl
  · split
    · rfl
    · split
      · split
        · rfl
        · rfl
      · rfl

theorem parseLoop_exclusive : ∀ (flags : List CFlag) (c0 f0 : Bool), c0 ≠ f0 →
    ∀ cm fm, parseLoop flags c0 f0 = some (cm, fm) → cm ≠ fm
  | [], c0, f0, h, cm, fm, hp => by
    simp only [parseLoop, Option.some.injEq, Prod.mk.injEq] at hp
    obtain ⟨rfl, rfl⟩ := hp
    exact h
  | CFlag.c :: rest, c0, f0, h, cm, fm, hp =>
    parseLoop_exclusive rest true false (by simp) cm fm hp
  | CFlag.f :: rest, c0, f0, h, cm, fm, hp =>
    parseLoop_exclusive rest false true (by simp) cm fm hp
  | CFlag.h :: rest, c0, f0, h, cm, fm, hp => by
    simp [parseLoop] at hp
  | CFlag.unknown :: rest, c0, f0, h, cm, fm, hp => by
    simp [parseLoop] at hp

/-- Claim C10: after flag parsing exactly one of `count_mode` and
`freq_mode` is true — count mode is the default, and each mode flag sets
one and clears the other — so the `"Please specify a mode."` branch of
`main` is unreachable. -/
theorem mode_flags_exclusive :
    (∀ (flags : List CFlag) (cm fm : Bool),
      parseLoop flags true false = some (cm, fm) → cm ≠ fm) ∧
    (∀ flags : List CFlag, please_specify_reached flags = false) := by
  constructor
  · intro flags cm fm hp
    exact parseLoop_exclusive flags true false (by simp) cm fm hp
  · intro flags
    unfold please_specify_reached
    cases hp : parseLoop flags true false with
    | none => rfl
    | some p =>
      obtain ⟨cm, fm⟩ := p
      have hne := parseLoop_exclusive flags true false (by simp) cm fm hp
      cases cm
      · cases fm
        · exact absurd rfl hne
        · rfl
      · rfl

/-- Witness for C10: the flag list `[-f]` parses to `count_mode = false`,
`freq_mode = true`, and does not reach the missing-mode branch. -/
theorem mode_flags_exclusive_witness :
    please_specify_reached [CFlag.f] = false ∧ ((false : Bool) ≠ true) :=
  ⟨mode_flags_exclusive.2 [CFlag.f], mode_flags_exclusive.1 [CFlag.f] false true rfl⟩

/-- Claim C7: with several input files the contributions accumulate into
one shared result: in total-count mode (the default) the per-file counts
are summed into one aggregate, and in frequency mode every file feeds the
same table, so counts are global across inputs — the two files
`"dog dog"` and `"dog cat"` produce `dog: 3, cat: 1`. -/
theorem multi_file_accumulation :
    (∀ (stdin f0 : List Nat) (fs : List (List Nat)),
      (mainRun [] stdin ((f0 :: fs).map some)).total = ((f0 :: fs).map num_words).sum) ∧
    (mainRun [CFlag.f] []
        [some [100, 111, 103, 32, 100, 111, 103],
         some [100, 111, 103, 32, 99, 97, 116]]).table =
      [([100, 111, 103], 3), ([99, 97, 116], 1)] := by
  constructor
  · intro stdin f0 fs
    have h1 : (mainRun [] stdin ((f0 :: fs).map some)).total =
        (List.foldl (fileLoop true) (0, []) ((f0 :: fs).map some)).1 := rfl
    rw [h1, fileLoop_count_sum (f0 :: fs) 0 []]
    simp
  · rfl
